import Mathlib

set_option maxRecDepth 100000

/-!
Shallow embedding of the per-kilometer split aggregation of
`src/utils.py` (`process_activity_data`) and the fastest-split
selection of `src/plot_activities.py` (`analyze_multiple_activities`),
over exact rational arithmetic with an explicit IEEE-style value type
(`FVal`) carrying NaN and the infinities that pandas/numpy float
division can produce.
-/

namespace Garmin

/-- IEEE-style float value over exact rationals: finite rational,
positive/negative infinity, or NaN.  Mirrors the special values pandas
float columns can hold. -/
inductive FVal where
  | nan : FVal
  | inf : FVal
  | negInf : FVal
  | fin : ℚ → FVal
deriving DecidableEq, Repr

/-- Lift an optional rational (pandas cell, NaN = absent) to `FVal`. -/
def ofOpt : Option ℚ → FVal
  | none => FVal.nan
  | some q => FVal.fin q

/-- IEEE/numpy division on `FVal`: `x/0` is `inf`/`-inf`/`nan` by the
sign of `x`, NaN propagates; this is what `split_duration /
split_distance` does on pandas float Series (line 46 of utils.py). -/
def FVal.divF : FVal → FVal → FVal
  | .nan, _ => .nan
  | _, .nan => .nan
  | .fin a, .fin b =>
      if b = 0 then (if 0 < a then .inf else if a < 0 then .negInf else .nan)
      else .fin (a / b)
  | .fin _, .inf => .fin 0
  | .fin _, .negInf => .fin 0
  | .inf, .fin b => if b < 0 then .negInf else .inf
  | .negInf, .fin b => if b < 0 then .inf else .negInf
  | .inf, .inf => .nan
  | .inf, .negInf => .nan
  | .negInf, .inf => .nan
  | .negInf, .negInf => .nan

/-- Is the value a finite number? (`not isnan and not isinf`). -/
def FVal.isFin : FVal → Bool
  | .fin _ => true
  | _ => false

/-- `pandas.notna`: false exactly on NaN (infinities count as present). -/
def FVal.notNa : FVal → Bool
  | .nan => false
  | _ => true

/-- `numpy.isinf`: true exactly on the two infinities. -/
def FVal.isInfB : FVal → Bool
  | .inf => true
  | .negInf => true
  | _ => false

/-- The comparison `pace > 0` on floats: NaN compares false,
`+inf > 0` is true. -/
def FVal.gtZero : FVal → Bool
  | .nan => false
  | .inf => true
  | .negInf => false
  | .fin q => decide (0 < q)

/-- The finite payload of an `FVal` (0 for the non-finite values; only
used on values already filtered to be finite). -/
def FVal.val : FVal → ℚ
  | .fin q => q
  | _ => 0

/-- Python `int()` on a rational: truncation toward zero (utils.py
line 28, `df["distance_km"].apply(lambda x: int(x))`), computed as
truncating integer division of numerator by denominator. -/
def truncQ (q : ℚ) : ℤ := q.num.tdiv q.den

/-- `truncQ` is floor on nonnegatives and ceiling on negatives —
exactly Python `int()` truncation toward zero. -/
theorem truncQ_eq (q : ℚ) : truncQ q = if q < 0 then ⌈q⌉ else ⌊q⌋ := by
  by_cases h : q < 0
  · simp only [truncQ, h, if_true]
    have hnum : q.num < 0 := Rat.num_neg.mpr h
    have h1 : q.num.tdiv q.den = -((-q.num).tdiv q.den) := by
      rw [Int.neg_tdiv, neg_neg]
    have h2 : (-q.num).tdiv (q.den : ℤ) = (-q.num) / (q.den : ℤ) :=
      Int.tdiv_eq_ediv (by omega) (by positivity)
    have h3 : ⌈q⌉ = -⌊-q⌋ := by
      rw [← Int.ceil_neg (α := ℚ) (a := -q), neg_neg]
    rw [h1, h2, h3, Rat.floor_def, Rat.num_neg_eq_neg_num, Rat.den_neg_eq_den]
  · simp only [truncQ, h, if_false]
    have hnum : 0 ≤ q.num := Rat.num_nonneg.mpr (le_of_not_lt h)
    rw [Int.tdiv_eq_ediv hnum (by positivity), Rat.floor_def]

/-- One row of the activity DataFrame after the `sumDistance` column
has been materialised (the `int()` on line 28 has already forced every
`sumDistance` cell to be present); `sumDuration` and `directHeartRate`
cells may still be NaN (`none`). -/
structure Sample where
  sumDistance : ℚ
  sumDuration : Option ℚ
  directHeartRate : Option ℚ
deriving DecidableEq, Repr

/-- `km_interval` of a sample: `int(sumDistance / 1000)` (utils.py
lines 25 and 28). -/
def kmOf (s : Sample) : ℤ := truncQ (s.sumDistance / 1000)

/-- Insert a key into an ascending duplicate-free key list, keeping
it ascending and duplicate-free. -/
def insertKey (k : ℤ) : List ℤ → List ℤ
  | [] => [k]
  | x :: xs =>
      if k = x then x :: xs
      else if k < x then k :: x :: xs
      else x :: insertKey k xs

/-- The distinct bucket keys in ascending order — pandas
`groupby("km_interval")` iterates groups with sorted keys. -/
def kmKeys (samples : List Sample) : List ℤ :=
  (samples.map kmOf).foldr insertKey []

/-- The group of a bucket key: the samples with that key, in input
order. -/
def groupOf (samples : List Sample) (k : ℤ) : List Sample :=
  samples.filter (fun s => kmOf s = k)

/-- pandas `mean` with `skipna`: mean of the present values, NaN
(`none`) when all are absent. -/
def meanOpt (l : List ℚ) : Option ℚ :=
  if l = [] then none else some (l.sum / l.length)

/-- pandas `max` with `skipna`: max of the present values, NaN
(`none`) when all are absent. -/
def maxOpt : List ℚ → Option ℚ
  | [] => none
  | x :: xs => some ((maxOpt xs).elim x (max x))

/-- One row of the `km_stats` DataFrame right after the
`groupby(...).agg(...)` of utils.py lines 29–37. -/
structure KmStat where
  km_interval : ℤ
  directHeartRate : Option ℚ
  sumDistance : ℚ
  sumDuration : Option ℚ
deriving DecidableEq, Repr

/-- The aggregation of one group (utils.py lines 31–35):
heart-rate mean (skipna), max cumulative distance, max cumulative
duration (skipna). -/
def aggGroup (samples : List Sample) (k : ℤ) : KmStat :=
  let g := groupOf samples k
  { km_interval := k
    directHeartRate := meanOpt (g.filterMap (fun s => s.directHeartRate))
    sumDistance := (maxOpt (g.map (fun s => s.sumDistance))).getD 0
    sumDuration := maxOpt (g.filterMap (fun s => s.sumDuration)) }

/-- The `km_stats` table: one aggregated row per distinct key, keys
ascending. -/
def kmStats (samples : List Sample) : List KmStat :=
  (kmKeys samples).map (aggGroup samples)

/-- `Series.diff` on the tail of a list, with NaN propagation. -/
def diffTail (prev : Option ℚ) : List (Option ℚ) → List (Option ℚ)
  | [] => []
  | x :: rest =>
      (match x, prev with
       | some a, some b => some (a - b)
       | _, _ => none) :: diffTail x rest

/-- `Series.diff()` followed by the overwrite
`result.loc[0] = series.loc[0]` (utils.py lines 40–41): the first
entry is the value itself, later entries are consecutive differences. -/
def diffFirstOwn : List (Option ℚ) → List (Option ℚ)
  | [] => []
  | x :: rest => x :: diffTail x rest

/-- `Series.diff` on the tail, for the always-present distance
column. -/
def diffTailQ (prev : ℚ) : List ℚ → List ℚ
  | [] => []
  | x :: rest => (x - prev) :: diffTailQ x rest

/-- `diff()` with the first entry overwritten by the value itself
(utils.py lines 43–44), distance version. -/
def diffFirstOwnQ : List ℚ → List ℚ
  | [] => []
  | x :: rest => x :: diffTailQ x rest

/-- `split_distance` (utils.py lines 43–44): per-bucket distance in
kilometers. -/
def split_distance (samples : List Sample) : List ℚ :=
  (diffFirstOwnQ ((kmStats samples).map (fun s => s.sumDistance))).map (fun q => q / 1000)

/-- `split_duration` (utils.py lines 40–41): per-bucket duration in
minutes, NaN-propagating. -/
def split_duration (samples : List Sample) : List (Option ℚ) :=
  (diffFirstOwn ((kmStats samples).map (fun s => s.sumDuration))).map (fun o => o.map (fun q => q / 60))

/-- One row of the returned `km_stats` DataFrame (after lines 46–47
added the `interval_pace` and `interval_length` columns). -/
structure SplitRecord where
  km_interval : ℤ
  directHeartRate : Option ℚ
  sumDistance : ℚ
  sumDuration : Option ℚ
  interval_pace : FVal
  interval_length : ℚ
deriving DecidableEq, Repr

/-- One output row from an aggregated row and its two split-column
entries: `interval_pace = split_duration / split_distance` under
float division, `interval_length = split_distance` (lines 46–47). -/
def mkRec (s : KmStat) (d : ℚ) (t : Option ℚ) : SplitRecord :=
  { km_interval := s.km_interval
    directHeartRate := s.directHeartRate
    sumDistance := s.sumDistance
    sumDuration := s.sumDuration
    interval_pace := FVal.divF (ofOpt t) (FVal.fin d)
    interval_length := d }

/-- Zip the aggregated rows with the two split columns (lines 46–47). -/
def mkRecords : List KmStat → List ℚ → List (Option ℚ) → List SplitRecord
  | s :: ss, d :: ds, t :: ts => mkRec s d t :: mkRecords ss ds ts
  | _, _, _ => []

/-- The whole aggregation pipeline of utils.py lines 27–49 on decoded
samples: group by truncated kilometer, aggregate, difference, divide. -/
def processSamples (samples : List Sample) : List SplitRecord :=
  mkRecords (kmStats samples) (split_distance samples) (split_duration samples)

/-- The validity filter of plot_activities.py lines 33–38:
`interval_pace.notna() & ~isinf(interval_pace) & (interval_pace > 0)
& (km_interval >= minIndex)`. -/
def validSplit (minIndex : ℤ) (r : SplitRecord) : Bool :=
  r.interval_pace.notNa && !r.interval_pace.isInfB &&
    r.interval_pace.gtZero && decide (minIndex ≤ r.km_interval)

/-- `SplitFilter`: the row selection producing `valid_splits`. -/
def splitFilter (minIndex : ℤ) (rs : List SplitRecord) : List SplitRecord :=
  rs.filter (validSplit minIndex)

/-- `Series.idxmin` selection: the first element attaining the
minimum of `f`, `none` on an empty list. -/
def argminFirst (f : SplitRecord → ℚ) : List SplitRecord → Option SplitRecord
  | [] => none
  | r :: rs =>
      match argminFirst f rs with
      | none => some r
      | some m => if f r ≤ f m then some r else some m

/-- `fastestSplit` (plot_activities.py lines 33–45): filter, then take
the row of the minimal `interval_pace` via `idxmin`. -/
def fastestSplit (rs : List SplitRecord) (minIndex : ℤ) : Option SplitRecord :=
  argminFirst (fun r => r.interval_pace.val) (splitFilter minIndex rs)

/-! ## Supporting lemmas -/

/-- Float division by an exact zero never returns a finite value. -/
theorem divF_zero_not_fin (t : FVal) : (FVal.divF t (FVal.fin 0)).isFin = false := by
  cases t with
  | nan => rfl
  | inf => simp [FVal.divF, FVal.isFin]
  | negInf => simp [FVal.divF, FVal.isFin]
  | fin a =>
      simp only [FVal.divF, if_pos rfl]
      by_cases h : 0 < a
      · simp [h, FVal.isFin]
      · by_cases h' : a < 0 <;> simp [h, h', FVal.isFin]

/-- Float division of a positive value by an exact zero is `+inf`. -/
theorem divF_pos_zero (q : ℚ) (hq : 0 < q) :
    FVal.divF (FVal.fin q) (FVal.fin 0) = FVal.inf := by
  simp [FVal.divF, hq]

/-- Truncation toward zero is monotone. -/
theorem truncQ_mono {a b : ℚ} (h : a ≤ b) : truncQ a ≤ truncQ b := by
  rw [truncQ_eq, truncQ_eq]
  by_cases ha : a < 0
  · by_cases hb : b < 0
    · simpa [ha, hb] using Int.ceil_le_ceil h
    · have h1 : ⌈a⌉ ≤ (0 : ℤ) := Int.ceil_le.mpr (by exact_mod_cast le_of_lt ha)
      have h2 : (0 : ℤ) ≤ ⌊b⌋ := Int.floor_nonneg.mpr (le_of_not_lt hb)
      simp only [ha, hb, if_true, if_false]
      omega
  · have hb : ¬b < 0 := fun hb => ha (lt_of_le_of_lt h hb)
    simpa [ha, hb] using Int.floor_le_floor h

theorem mem_insertKey {a k : ℤ} : ∀ {l : List ℤ}, a ∈ insertKey k l ↔ a = k ∨ a ∈ l := by
  intro l
  induction l with
  | nil => simp [insertKey]
  | cons x xs ih =>
      rw [insertKey]
      by_cases h1 : k = x
      · rw [if_pos h1, List.mem_cons]
        subst h1
        tauto
      · rw [if_neg h1]
        by_cases h2 : k < x
        · rw [if_pos h2, List.mem_cons, List.mem_cons]
        · rw [if_neg h2, List.mem_cons, ih, List.mem_cons]
          tauto

theorem insertKey_sorted {k : ℤ} : ∀ {l : List ℤ},
    l.Sorted (· < ·) → (insertKey k l).Sorted (· < ·) := by
  intro l
  induction l with
  | nil => intro _; simp [insertKey, List.sorted_singleton]
  | cons x xs ih =>
      intro hs
      rw [List.sorted_cons] at hs
      obtain ⟨hx, hxs⟩ := hs
      by_cases h1 : k = x
      · subst h1
        rw [insertKey, if_pos rfl, List.sorted_cons]
        exact ⟨hx, hxs⟩
      · by_cases h2 : k < x
        · rw [insertKey, if_neg h1, if_pos h2, List.sorted_cons]
          refine ⟨?_, ?_⟩
          · intro b hb
            rcases List.mem_cons.mp hb with hb | hb
            · omega
            · exact lt_trans h2 (hx b hb)
          · rw [List.sorted_cons]; exact ⟨hx, hxs⟩
        · have h3 : x < k := by omega
          rw [insertKey, if_neg h1, if_neg h2, List.sorted_cons]
          refine ⟨?_, ih hxs⟩
          intro b hb
          rcases mem_insertKey.mp hb with hb | hb
          · omega
          · exact hx b hb

theorem kmKeys_sorted (samples : List Sample) : (kmKeys samples).Sorted (· < ·) := by
  unfold kmKeys
  induction samples.map kmOf with
  | nil => simp
  | cons x xs ih => exact insertKey_sorted ih

theorem mem_kmKeys {samples : List Sample} {k : ℤ} :
    k ∈ kmKeys samples ↔ k ∈ samples.map kmOf := by
  unfold kmKeys
  induction samples.map kmOf with
  | nil => simp
  | cons x xs ih => simp [List.foldr_cons, mem_insertKey, ih]

theorem kmKeys_nodup (samples : List Sample) : (kmKeys samples).Nodup :=
  (kmKeys_sorted samples).nodup

theorem maxOpt_isSome {l : List ℚ} (h : l ≠ []) : (maxOpt l).isSome := by
  cases l with
  | nil => exact absurd rfl h
  | cons x xs => simp [maxOpt]

theorem maxOpt_mem : ∀ {l : List ℚ} {m : ℚ}, maxOpt l = some m → m ∈ l := by
  intro l
  induction l with
  | nil => intro m h; cases h
  | cons x xs ih =>
      intro m h
      rw [maxOpt] at h
      cases hx : maxOpt xs with
      | none => rw [hx] at h; simp only [Option.elim] at h; cases h; simp
      | some m' =>
          rw [hx] at h
          simp only [Option.elim] at h
          cases h
          rcases max_choice x m' with hc | hc <;> rw [hc]
          · simp
          · exact List.mem_cons_of_mem x (ih hx)

theorem le_maxOpt : ∀ {l : List ℚ} {m a : ℚ}, maxOpt l = some m → a ∈ l → a ≤ m := by
  intro l
  induction l with
  | nil => intro m a _ ha; cases ha
  | cons x xs ih =>
      intro m a h ha
      rw [maxOpt] at h
      cases hx : maxOpt xs with
      | none =>
          rw [hx] at h
          simp only [Option.elim] at h
          cases h
          cases xs with
          | nil => rcases List.mem_singleton.mp ha with rfl; exact le_refl _
          | cons y ys => cases hx
      | some m' =>
          rw [hx] at h
          simp only [Option.elim] at h
          cases h
          rcases List.mem_cons.mp ha with rfl | ha
          · exact le_max_left _ _
          · exact le_trans (ih hx ha) (le_max_right _ _)

/-- If `m` is a member bounding the whole list, it is the skipna
maximum. -/
theorem maxOpt_eq_of_mem_of_le {l : List ℚ} {m : ℚ} (hm : m ∈ l)
    (hb : ∀ x ∈ l, x ≤ m) : maxOpt l = some m := by
  have hne : l ≠ [] := List.ne_nil_of_mem hm
  cases hx : maxOpt l with
  | none =>
      have := maxOpt_isSome hne
      rw [hx] at this
      cases this
  | some m' =>
      have h1 : m' ∈ l := maxOpt_mem hx
      have h2 : m ≤ m' := le_maxOpt hx hm
      have h3 : m' ≤ m := hb m' h1
      rw [le_antisymm h3 h2]

theorem diffTailQ_length (xs : List ℚ) : ∀ p, (diffTailQ p xs).length = xs.length := by
  induction xs with
  | nil => intro p; rfl
  | cons x rest ih => intro p; simp [diffTailQ, ih]

theorem diffFirstOwnQ_length (xs : List ℚ) : (diffFirstOwnQ xs).length = xs.length := by
  cases xs with
  | nil => rfl
  | cons x rest => simp [diffFirstOwnQ, diffTailQ_length]

theorem diffTail_length (xs : List (Option ℚ)) : ∀ p, (diffTail p xs).length = xs.length := by
  induction xs with
  | nil => intro p; rfl
  | cons x rest ih => intro p; simp [diffTail, ih]

theorem diffFirstOwn_length (xs : List (Option ℚ)) : (diffFirstOwn xs).length = xs.length := by
  cases xs with
  | nil => rfl
  | cons x rest => simp [diffFirstOwn, diffTail_length]

theorem diffTailQ_getD (xs : List ℚ) : ∀ p j, j < xs.length →
    (diffTailQ p xs).getD j 0 =
      xs.getD j 0 - (if j = 0 then p else xs.getD (j - 1) 0) := by
  induction xs with
  | nil => intro p j h; cases h
  | cons x rest ih =>
      intro p j h
      cases j with
      | zero => simp [diffTailQ]
      | succ k =>
          have hk : k < rest.length := by simpa using h
          simp only [diffTailQ, List.getD_cons_succ]
          rw [ih x k hk]
          cases k with
          | zero => simp
          | succ k' => simp

theorem diffFirstOwnQ_getD (xs : List ℚ) (i : ℕ) (h : i < xs.length) :
    (diffFirstOwnQ xs).getD i 0 =
      xs.getD i 0 - (if i = 0 then 0 else xs.getD (i - 1) 0) := by
  cases xs with
  | nil => cases h
  | cons x rest =>
      cases i with
      | zero => simp [diffFirstOwnQ]
      | succ k =>
          have hk : k < rest.length := by simpa using h
          simp only [diffFirstOwnQ, List.getD_cons_succ]
          rw [diffTailQ_getD rest x k hk]
          cases k with
          | zero => simp
          | succ k' => simp

theorem sum_diffTailQ (xs : List ℚ) : ∀ p, (diffTailQ p xs).sum = xs.getLastD p - p := by
  induction xs with
  | nil => intro p; simp [diffTailQ]
  | cons x rest ih =>
      intro p
      rw [diffTailQ, List.sum_cons, ih x, List.getLastD_cons]
      ring

theorem sum_diffFirstOwnQ (xs : List ℚ) : (diffFirstOwnQ xs).sum = xs.getLastD 0 := by
  cases xs with
  | nil => rfl
  | cons x rest =>
      rw [diffFirstOwnQ, List.sum_cons, sum_diffTailQ rest x, List.getLastD_cons]
      ring

/-- `diff` on an all-present column is `diff` on the values. -/
theorem diffTail_map_some (xs : List ℚ) : ∀ p,
    diffTail (some p) (xs.map some) = (diffTailQ p xs).map some := by
  induction xs with
  | nil => intro p; rfl
  | cons x rest ih => intro p; simp [diffTail, diffTailQ, ih]

theorem diffFirstOwn_map_some (xs : List ℚ) :
    diffFirstOwn (xs.map some) = (diffFirstOwnQ xs).map some := by
  cases xs with
  | nil => rfl
  | cons x rest => simp [diffFirstOwn, diffFirstOwnQ, diffTail_map_some]

theorem mkRecords_length : ∀ (ss : List KmStat) (ds : List ℚ) (ts : List (Option ℚ)),
    ss.length = ds.length → ss.length = ts.length →
    (mkRecords ss ds ts).length = ss.length := by
  intro ss
  induction ss with
  | nil =>
      intro ds ts h1 h2
      cases ds <;> cases ts <;> rfl
  | cons s ss ih =>
      intro ds ts h1 h2
      cases ds with
      | nil => cases h1
      | cons d ds =>
          cases ts with
          | nil => cases h2
          | cons t ts =>
              simp only [mkRecords, List.length_cons]
              rw [ih ds ts (by simpa using h1) (by simpa using h2)]

theorem mkRecords_get : ∀ (ss : List KmStat) (ds : List ℚ) (ts : List (Option ℚ))
    (i : ℕ) (h : i < (mkRecords ss ds ts).length)
    (h1 : i < ss.length) (h2 : i < ds.length) (h3 : i < ts.length),
    (mkRecords ss ds ts).get ⟨i, h⟩ =
      mkRec (ss.get ⟨i, h1⟩) (ds.get ⟨i, h2⟩) (ts.get ⟨i, h3⟩) := by
  intro ss
  induction ss with
  | nil => intro ds ts i h h1 h2 h3; cases h1
  | cons s ss ih =>
      intro ds ts i h h1 h2 h3
      cases ds with
      | nil => cases h2
      | cons d ds =>
          cases ts with
          | nil => cases h3
          | cons t ts =>
              cases i with
              | zero => rfl
              | succ k =>
                  have hk : k < (mkRecords ss ds ts).length := by
                    simpa [mkRecords] using h
                  exact ih ds ts k hk (by simpa using h1) (by simpa using h2)
                    (by simpa using h3)

theorem mkRecords_mem : ∀ (ss : List KmStat) (ds : List ℚ) (ts : List (Option ℚ))
    (r : SplitRecord), r ∈ mkRecords ss ds ts →
    ∃ s d t, s ∈ ss ∧ r = mkRec s d t := by
  intro ss
  induction ss with
  | nil => intro ds ts r h; cases ds <;> cases ts <;> cases h
  | cons s ss ih =>
      intro ds ts r h
      cases ds with
      | nil => cases h
      | cons d ds =>
          cases ts with
          | nil => cases h
          | cons t ts =>
              rcases List.mem_cons.mp h with rfl | h
              · exact ⟨s, d, t, List.mem_cons_self _ _, rfl⟩
              · obtain ⟨s', d', t', hs', he⟩ := ih ds ts r h
                exact ⟨s', d', t', List.mem_cons_of_mem _ hs', he⟩

theorem kmStats_length (samples : List Sample) :
    (kmStats samples).length = (kmKeys samples).length := by
  simp [kmStats]

theorem split_distance_length (samples : List Sample) :
    (split_distance samples).length = (kmStats samples).length := by
  simp [split_distance, diffFirstOwnQ_length]

theorem split_duration_length (samples : List Sample) :
    (split_duration samples).length = (kmStats samples).length := by
  simp [split_duration, diffFirstOwn_length]

theorem processSamples_length (samples : List Sample) :
    (processSamples samples).length = (kmStats samples).length := by
  rw [processSamples]
  exact mkRecords_length _ _ _ (split_distance_length samples).symm
    (split_duration_length samples).symm

theorem processSamples_get (samples : List Sample) (i : ℕ)
    (h : i < (processSamples samples).length) :
    (processSamples samples).get ⟨i, h⟩ =
      mkRec ((kmStats samples).get ⟨i, by rw [← processSamples_length]; exact h⟩)
        ((split_distance samples).get
          ⟨i, by rw [split_distance_length, ← processSamples_length]; exact h⟩)
        ((split_duration samples).get
          ⟨i, by rw [split_duration_length, ← processSamples_length]; exact h⟩) :=
  mkRecords_get _ _ _ i h _ _ _

theorem kmStats_get (samples : List Sample) (i : ℕ) (h : i < (kmStats samples).length) :
    (kmStats samples).get ⟨i, h⟩ =
      aggGroup samples ((kmKeys samples).get ⟨i, by rw [← kmStats_length]; exact h⟩) := by
  simp [kmStats]

theorem aggGroup_km (samples : List Sample) (k : ℤ) :
    (aggGroup samples k).km_interval = k := rfl

theorem mkRec_km (s : KmStat) (d : ℚ) (t : Option ℚ) :
    (mkRec s d t).km_interval = s.km_interval := rfl

theorem processSamples_map_km (samples : List Sample) :
    (processSamples samples).map (fun r => r.km_interval) = kmKeys samples := by
  apply List.ext_get
  · simp [processSamples_length, kmStats_length]
  · intro i h1 h2
    rw [List.get_map, processSamples_get samples i (by simpa using h1), mkRec_km,
      kmStats_get, aggGroup_km]

/-- Each output row is built from the aggregated row of a key of the
input, with the aggregation fields carried over unchanged. -/
theorem mem_processSamples_stat {samples : List Sample} {r : SplitRecord}
    (h : r ∈ processSamples samples) :
    ∃ k, k ∈ kmKeys samples ∧ r.km_interval = k ∧
      r.directHeartRate = (aggGroup samples k).directHeartRate ∧
      r.sumDistance = (aggGroup samples k).sumDistance ∧
      r.sumDuration = (aggGroup samples k).sumDuration := by
  obtain ⟨s, d, t, hs, he⟩ := mkRecords_mem _ _ _ r h
  rw [kmStats] at hs
  obtain ⟨k, hk, rfl⟩ := List.mem_map.mp hs
  subst he
  exact ⟨k, hk, rfl, rfl, rfl, rfl⟩

/-- Every output row's pace is the float division of some duration
value by the row's own `interval_length`. -/
theorem mem_processSamples_pace {samples : List Sample} {r : SplitRecord}
    (h : r ∈ processSamples samples) :
    ∃ t, r.interval_pace = FVal.divF t (FVal.fin r.interval_length) := by
  obtain ⟨s, d, t, _, he⟩ := mkRecords_mem _ _ _ r h
  subst he
  exact ⟨ofOpt t, rfl⟩

/-- In a pairwise-related list every element is the last one or
relates to it. -/
theorem pairwise_getLast {α : Type} {R : α → α → Prop} :
    ∀ {l : List α}, List.Pairwise R l → ∀ (hne : l ≠ []) (x : α), x ∈ l →
      x = l.getLast hne ∨ R x (l.getLast hne) := by
  intro l
  induction l with
  | nil => intro _ hne; exact absurd rfl hne
  | cons a l ih =>
      intro h hne x hx
      cases l with
      | nil =>
          left
          rcases List.mem_singleton.mp hx with rfl
          rfl
      | cons b l' =>
          rw [List.getLast_cons (by simp)]
          rcases List.mem_cons.mp hx with rfl | hx
          · right
            exact (List.pairwise_cons.mp h).1 _ (List.getLast_mem (by simp))
          · exact ih (List.pairwise_cons.mp h).2 (by simp) x hx

theorem getLastD_map_of_ne_nil {α β : Type} (f : α → β) (l : List α)
    (hne : l ≠ []) (d : β) : (l.map f).getLastD d = f (l.getLast hne) := by
  rw [List.getLastD_eq_getLast?, List.getLast?_map,
    List.getLast?_eq_getLast l hne]
  rfl

theorem kmOf_le_of_dist_le {u v : Sample} (h : u.sumDistance ≤ v.sumDistance) :
    kmOf u ≤ kmOf v :=
  truncQ_mono ((div_le_div_iff_of_pos_right (by norm_num : (0:ℚ) < 1000)).mpr h)

theorem kmKeys_ne_nil {samples : List Sample} (hne : samples ≠ []) :
    kmKeys samples ≠ [] := by
  cases samples with
  | nil => exact absurd rfl hne
  | cons s rest =>
      have : kmOf s ∈ kmKeys (s :: rest) := mem_kmKeys.mpr (by simp)
      exact List.ne_nil_of_mem this

theorem groupOf_ne_nil {samples : List Sample} {k : ℤ} (hk : k ∈ kmKeys samples) :
    groupOf samples k ≠ [] := by
  obtain ⟨s, hs, he⟩ := List.mem_map.mp (mem_kmKeys.mp hk)
  exact List.ne_nil_of_mem (List.mem_filter.mpr ⟨hs, by simp [he]⟩)

theorem mem_groupOf {samples : List Sample} {k : ℤ} {s : Sample} :
    s ∈ groupOf samples k ↔ s ∈ samples ∧ kmOf s = k := by
  simp [groupOf]

/-- Under ascending distances, the last key is the last sample's key. -/
theorem kmKeys_getLast (samples : List Sample) (hne : samples ≠ [])
    (hm : List.Pairwise (fun u v : Sample => u.sumDistance ≤ v.sumDistance) samples) :
    (kmKeys samples).getLast (kmKeys_ne_nil hne) = kmOf (samples.getLast hne) := by
  set K := (kmKeys samples).getLast (kmKeys_ne_nil hne) with hK
  have hKmem : K ∈ kmKeys samples := List.getLast_mem _
  have h1 : K ≤ kmOf (samples.getLast hne) := by
    obtain ⟨s, hs, he⟩ := List.mem_map.mp (mem_kmKeys.mp hKmem)
    rcases pairwise_getLast hm hne s hs with rfl | hR
    · omega
    · rw [← he]
      exact kmOf_le_of_dist_le hR
  have h2 : kmOf (samples.getLast hne) ≤ K := by
    have hmem : kmOf (samples.getLast hne) ∈ kmKeys samples :=
      mem_kmKeys.mpr (List.mem_map.mpr ⟨_, List.getLast_mem hne, rfl⟩)
    rcases pairwise_getLast (kmKeys_sorted samples) (kmKeys_ne_nil hne) _ hmem with
      he | hlt
    · omega
    · exact le_of_lt hlt
  omega

/-- Under ascending distances, the boundary distance of each group is
the distance of the group's last sample. -/
theorem aggGroup_dist_getLast (samples : List Sample) (k : ℤ) (hk : k ∈ kmKeys samples)
    (hm : List.Pairwise (fun u v : Sample => u.sumDistance ≤ v.sumDistance) samples) :
    (aggGroup samples k).sumDistance =
      ((groupOf samples k).getLast (groupOf_ne_nil hk)).sumDistance := by
  have hgm : List.Pairwise (fun u v : Sample => u.sumDistance ≤ v.sumDistance)
      (groupOf samples k) := List.Pairwise.sublist (List.filter_sublist samples) hm
  set g := groupOf samples k with hg
  have hne : g ≠ [] := groupOf_ne_nil hk
  have hlast : g.getLast hne ∈ g := List.getLast_mem hne
  have hbound : ∀ x ∈ g.map (fun s => s.sumDistance), x ≤ (g.getLast hne).sumDistance := by
    intro x hx
    obtain ⟨s, hs, rfl⟩ := List.mem_map.mp hx
    rcases pairwise_getLast hgm hne s hs with rfl | hR
    · exact le_refl _
    · exact hR
  have hmem : (g.getLast hne).sumDistance ∈ g.map (fun s => s.sumDistance) :=
    List.mem_map.mpr ⟨_, hlast, rfl⟩
  show (maxOpt (g.map (fun s => s.sumDistance))).getD 0 = _
  rw [maxOpt_eq_of_mem_of_le hmem hbound]
  rfl

/-- `filterMap` of a field that is present everywhere is a `map`. -/
theorem filterMap_dur_eq_map : ∀ {l : List Sample},
    (∀ s ∈ l, s.sumDuration.isSome) →
    l.filterMap (fun s => s.sumDuration) = l.map (fun s => s.sumDuration.getD 0) := by
  intro l
  induction l with
  | nil => intro _; rfl
  | cons s rest ih =>
      intro hp
      obtain ⟨q, hq⟩ := Option.isSome_iff_exists.mp (hp s (by simp))
      rw [List.filterMap_cons, List.map_cons, hq]
      rw [ih (fun x hx => hp x (List.mem_cons_of_mem _ hx))]
      simp [hq]

/-- Under present, ascending durations and ascending distances, the
boundary duration of each group is the duration of the group's last
sample. -/
theorem aggGroup_dur_getLast (samples : List Sample) (k : ℤ) (hk : k ∈ kmKeys samples)
    (hp : ∀ s ∈ samples, s.sumDuration.isSome)
    (hd : List.Pairwise
      (fun u v : Sample => u.sumDuration.getD 0 ≤ v.sumDuration.getD 0) samples) :
    (aggGroup samples k).sumDuration =
      ((groupOf samples k).getLast (groupOf_ne_nil hk)).sumDuration := by
  have hgm : List.Pairwise
      (fun u v : Sample => u.sumDuration.getD 0 ≤ v.sumDuration.getD 0)
      (groupOf samples k) := List.Pairwise.sublist (List.filter_sublist samples) hd
  set g := groupOf samples k with hg
  have hne : g ≠ [] := groupOf_ne_nil hk
  have hgp : ∀ s ∈ g, s.sumDuration.isSome := by
    intro s hs
    exact hp s (mem_groupOf.mp hs).1
  have hlast : g.getLast hne ∈ g := List.getLast_mem hne
  have hbound : ∀ x ∈ g.map (fun s => s.sumDuration.getD 0),
      x ≤ (g.getLast hne).sumDuration.getD 0 := by
    intro x hx
    obtain ⟨s, hs, rfl⟩ := List.mem_map.mp hx
    rcases pairwise_getLast hgm hne s hs with rfl | hR
    · exact le_refl _
    · exact hR
  have hmem : (g.getLast hne).sumDuration.getD 0 ∈
      g.map (fun s => s.sumDuration.getD 0) := List.mem_map.mpr ⟨_, hlast, rfl⟩
  show maxOpt (g.filterMap (fun s => s.sumDuration)) = _
  rw [filterMap_dur_eq_map hgp, maxOpt_eq_of_mem_of_le hmem hbound]
  obtain ⟨q, hq⟩ := Option.isSome_iff_exists.mp (hgp _ hlast)
  rw [hq]
  rfl

/-- Boundary distance of the last key is the last sample's distance. -/
theorem aggGroup_lastKey_dist (samples : List Sample) (hne : samples ≠ [])
    (hm : List.Pairwise (fun u v : Sample => u.sumDistance ≤ v.sumDistance) samples) :
    (aggGroup samples (kmOf (samples.getLast hne))).sumDistance =
      (samples.getLast hne).sumDistance := by
  set lastS := samples.getLast hne with hlS
  set g := groupOf samples (kmOf lastS) with hg
  have hmemg : lastS ∈ g := mem_groupOf.mpr ⟨List.getLast_mem hne, rfl⟩
  have hbound : ∀ x ∈ g.map (fun s => s.sumDistance), x ≤ lastS.sumDistance := by
    intro x hx
    obtain ⟨s, hs, rfl⟩ := List.mem_map.mp hx
    rcases pairwise_getLast hm hne s (mem_groupOf.mp hs).1 with he | hR
    · rw [he]
    · exact hR
  have hmem : lastS.sumDistance ∈ g.map (fun s => s.sumDistance) :=
    List.mem_map.mpr ⟨_, hmemg, rfl⟩
  show (maxOpt (g.map (fun s => s.sumDistance))).getD 0 = _
  rw [maxOpt_eq_of_mem_of_le hmem hbound]
  rfl

/-- Boundary duration of the last key is the last sample's duration. -/
theorem aggGroup_lastKey_dur (samples : List Sample) (hne : samples ≠ [])
    (hp : ∀ s ∈ samples, s.sumDuration.isSome)
    (hd : List.Pairwise
      (fun u v : Sample => u.sumDuration.getD 0 ≤ v.sumDuration.getD 0) samples) :
    (aggGroup samples (kmOf (samples.getLast hne))).sumDuration =
      (samples.getLast hne).sumDuration := by
  set lastS := samples.getLast hne with hlS
  set g := groupOf samples (kmOf lastS) with hg
  have hmemg : lastS ∈ g := mem_groupOf.mpr ⟨List.getLast_mem hne, rfl⟩
  have hgp : ∀ s ∈ g, s.sumDuration.isSome := fun s hs => hp s (mem_groupOf.mp hs).1
  have hbound : ∀ x ∈ g.map (fun s => s.sumDuration.getD 0),
      x ≤ lastS.sumDuration.getD 0 := by
    intro x hx
    obtain ⟨s, hs, rfl⟩ := List.mem_map.mp hx
    rcases pairwise_getLast hd hne s (mem_groupOf.mp hs).1 with he | hR
    · rw [he]
    · exact hR
  have hmem : lastS.sumDuration.getD 0 ∈ g.map (fun s => s.sumDuration.getD 0) :=
    List.mem_map.mpr ⟨_, hmemg, rfl⟩
  show maxOpt (g.filterMap (fun s => s.sumDuration)) = _
  rw [filterMap_dur_eq_map hgp, maxOpt_eq_of_mem_of_le hmem hbound]
  obtain ⟨q, hq⟩ := Option.isSome_iff_exists.mp (hp _ (List.getLast_mem hne))
  rw [show lastS.sumDuration = some q from hq]
  rfl

theorem getLast_map_of_ne_nil {α β : Type} (f : α → β) (l : List α) (hne : l ≠ [])
    (hne2 : l.map f ≠ []) : (l.map f).getLast hne2 = f (l.getLast hne) := by
  have h1 := List.getLast?_map f l
  rw [List.getLast?_eq_getLast l hne, List.getLast?_eq_getLast (l.map f) hne2] at h1
  simpa using h1

theorem sum_map_div (l : List ℚ) (c : ℚ) :
    (l.map (fun x => x / c)).sum = l.sum / c := by
  induction l with
  | nil => simp
  | cons x rest ih => simp [ih, add_div]

theorem mkRec_interval_length (s : KmStat) (d : ℚ) (t : Option ℚ) :
    (mkRec s d t).interval_length = d := rfl

theorem processSamples_map_interval_length (samples : List Sample) :
    (processSamples samples).map (fun r => r.interval_length) = split_distance samples := by
  apply List.ext_get
  · simp [processSamples_length, split_distance_length]
  · intro i h1 h2
    rw [List.get_map, processSamples_get samples i (by simpa using h1),
      mkRec_interval_length]

/-- On successful runs every aggregated duration is present when every
sample duration is. -/
theorem kmStats_dur_isSome {samples : List Sample}
    (hp : ∀ s ∈ samples, s.sumDuration.isSome) :
    ∀ st ∈ kmStats samples, st.sumDuration.isSome := by
  intro st hst
  rw [kmStats] at hst
  obtain ⟨k, hk, rfl⟩ := List.mem_map.mp hst
  have hne : groupOf samples k ≠ [] := groupOf_ne_nil hk
  have hgp : ∀ s ∈ groupOf samples k, s.sumDuration.isSome :=
    fun s hs => hp s (mem_groupOf.mp hs).1
  show (maxOpt ((groupOf samples k).filterMap (fun s => s.sumDuration))).isSome
  rw [filterMap_dur_eq_map hgp]
  apply maxOpt_isSome
  simpa using hne

/-- With all durations present the duration split column is an
all-present column of exact values. -/
theorem split_duration_eq_map_some (samples : List Sample)
    (hp : ∀ s ∈ samples, s.sumDuration.isSome) :
    split_duration samples =
      ((diffFirstOwnQ ((kmStats samples).map (fun st => st.sumDuration.getD 0))).map
        (fun q => q / 60)).map some := by
  have hcol : (kmStats samples).map (fun st => st.sumDuration) =
      ((kmStats samples).map (fun st => st.sumDuration.getD 0)).map some := by
    rw [List.map_map]
    apply List.map_congr_left
    intro st hst
    obtain ⟨q, hq⟩ := Option.isSome_iff_exists.mp (kmStats_dur_isSome hp st hst)
    simp [hq]
  rw [split_duration, hcol, diffFirstOwn_map_some, List.map_map, List.map_map]
  rfl

theorem argminFirst_eq_none_iff (f : SplitRecord → ℚ) (l : List SplitRecord) :
    argminFirst f l = none ↔ l = [] := by
  cases l with
  | nil => simp [argminFirst]
  | cons r rs =>
      simp only [argminFirst]
      cases argminFirst f rs with
      | none => simp
      | some m =>
          by_cases h : f r ≤ f m <;> simp [h]

theorem argminFirst_spec (f : SplitRecord → ℚ) :
    ∀ l : List SplitRecord,
      List.Pairwise (fun a b : SplitRecord => a.km_interval < b.km_interval) l →
      ∀ r, argminFirst f l = some r →
        r ∈ l ∧ (∀ x ∈ l, f r ≤ f x) ∧
        (∀ x ∈ l, f x = f r → r.km_interval ≤ x.km_interval) := by
  intro l
  induction l with
  | nil => intro _ r h; cases h
  | cons a rest ih =>
      intro hp r h
      obtain ⟨ha, hrest⟩ := List.pairwise_cons.mp hp
      cases hm : argminFirst f rest with
      | none =>
          simp only [argminFirst, hm] at h
          cases h
          rw [argminFirst_eq_none_iff] at hm
          subst hm
          refine ⟨by simp, ?_, ?_⟩
          · intro x hx
            rcases List.mem_singleton.mp hx with rfl
            exact le_refl _
          · intro x hx _
            rcases List.mem_singleton.mp hx with rfl
            exact le_refl _
      | some m =>
          simp only [argminFirst, hm] at h
          obtain ⟨hmem, hmin, htie⟩ := ih hrest m hm
          by_cases hle : f a ≤ f m
          · rw [if_pos hle] at h
            cases h
            refine ⟨by simp, ?_, ?_⟩
            · intro x hx
              rcases List.mem_cons.mp hx with rfl | hx
              · exact le_refl _
              · exact le_trans hle (hmin x hx)
            · intro x hx _
              rcases List.mem_cons.mp hx with rfl | hx
              · exact le_refl _
              · exact le_of_lt (ha x hx)
          · rw [if_neg hle] at h
            cases h
            refine ⟨List.mem_cons_of_mem _ hmem, ?_, ?_⟩
            · intro x hx
              rcases List.mem_cons.mp hx with rfl | hx
              · exact le_of_not_le hle
              · exact hmin x hx
            · intro x hx he
              rcases List.mem_cons.mp hx with rfl | hx
              · exact absurd (he ▸ le_refl (f x)) hle
              · exact htie x hx he

/-! ## Claim theorems -/

/-- C9: the bucket key truncates `distance_km` toward zero (Python
`int()`), which agrees with floor only for nonnegative distances: a
sample with cumulative distance strictly between −1000 and 0 gets
bucket key 0 — the same bucket as samples in [0, 1000) — while
floor-based bucketing would give −1. -/
theorem c9_truncation_toward_zero (s : Sample)
    (h1 : -1000 < s.sumDistance) (h2 : s.sumDistance < 0) :
    kmOf s = 0 ∧ ⌊s.sumDistance / 1000⌋ = -1 ∧
    (∀ s' : Sample, 0 ≤ s'.sumDistance → s'.sumDistance < 1000 → kmOf s' = 0) := by
  have hneg : s.sumDistance / 1000 < 0 := by linarith
  have hgt : (-1 : ℚ) < s.sumDistance / 1000 := by linarith
  refine ⟨?_, ?_, ?_⟩
  · rw [kmOf, truncQ_eq, if_pos hneg]
    have hup : ⌈s.sumDistance / 1000⌉ ≤ 0 :=
      Int.ceil_le.mpr (by exact_mod_cast le_of_lt hneg)
    have hlow : (-1 : ℤ) < ⌈s.sumDistance / 1000⌉ := by
      rw [Int.lt_ceil]
      exact_mod_cast hgt
    omega
  · rw [Int.floor_eq_iff]
    constructor
    · push_cast
      linarith
    · push_cast
      linarith
  · intro s' h1' h2'
    have hnn : ¬s'.sumDistance / 1000 < 0 := by
      push_neg
      positivity
    rw [kmOf, truncQ_eq, if_neg hnn]
    rw [Int.floor_eq_zero_iff, Set.mem_Ico]
    constructor
    · positivity
    · linarith

/-- C10: the SplitFilter step is a pure row selection — the survivors
form a subsequence of the input records (order kept, elements taken
unchanged from the input list, which the filter does not modify). -/
theorem c10_filter_subsequence (minIndex : ℤ) (rs : List SplitRecord) :
    (splitFilter minIndex rs).Sublist rs ∧
    ∀ r ∈ splitFilter minIndex rs, r ∈ rs := by
  refine ⟨List.filter_sublist rs, ?_⟩
  intro r hr
  exact (List.filter_sublist rs).mem hr

/-- C2: for nonempty input the output has exactly one record per
distinct bucket key observed (key = truncated-kilometer of a sample),
in strictly ascending `km_interval` order. -/
theorem c2_one_record_per_key (samples : List Sample) (hne : samples ≠ []) :
    ((processSamples samples).map (fun r => r.km_interval)).Sorted (· < ·) ∧
    (processSamples samples).length = (samples.map kmOf).toFinset.card ∧
    ∀ k : ℤ, ((processSamples samples).map (fun r => r.km_interval)).count k =
      if k ∈ samples.map kmOf then 1 else 0 := by
  have hmap := processSamples_map_km samples
  have hfin : (kmKeys samples).toFinset = (samples.map kmOf).toFinset := by
    ext a
    simp [List.mem_toFinset, mem_kmKeys]
  refine ⟨?_, ?_, ?_⟩
  · rw [hmap]; exact kmKeys_sorted samples
  · have : (processSamples samples).length =
        ((processSamples samples).map (fun r => r.km_interval)).length := by simp
    rw [this, hmap, ← hfin, List.toFinset_card_of_nodup (kmKeys_nodup samples)]
  · intro k
    rw [hmap]
    by_cases hk : k ∈ samples.map kmOf
    · rw [if_pos hk]
      exact List.count_eq_one_of_mem (kmKeys_nodup samples) (mem_kmKeys.mpr hk)
    · rw [if_neg hk]
      exact List.count_eq_zero_of_not_mem (fun hc => hk (mem_kmKeys.mp hc))

/-- C8: each record's `directHeartRate` is the arithmetic mean of the
heart rates present in its bucket; it is the absent marker exactly
when every sample of the bucket lacks a heart rate. -/
theorem c8_heart_rate_mean (samples : List Sample) (r : SplitRecord)
    (hr : r ∈ processSamples samples) :
    (r.directHeartRate = none ↔
      ∀ s ∈ groupOf samples r.km_interval, s.directHeartRate = none) ∧
    ∀ q, r.directHeartRate = some q →
      q = ((groupOf samples r.km_interval).filterMap (fun s => s.directHeartRate)).sum /
        ((groupOf samples r.km_interval).filterMap (fun s => s.directHeartRate)).length := by
  obtain ⟨k, hk, hkm, hhr, _, _⟩ := mem_processSamples_stat hr
  rw [hkm, hhr]
  show (meanOpt ((groupOf samples k).filterMap (fun s => s.directHeartRate)) = none ↔ _) ∧ _
  by_cases hl : (groupOf samples k).filterMap (fun s => s.directHeartRate) = []
  · constructor
    · rw [show ∀ l : List ℚ, meanOpt l = if l = [] then none else some (l.sum / l.length) from fun _ => rfl, if_pos hl]
      simp only [true_iff]
      intro s hs
      exact List.filterMap_eq_nil.mp hl s hs
    · intro q hq
      replace hq : meanOpt ((groupOf samples k).filterMap (fun s => s.directHeartRate)) =
          some q := hq
      rw [show ∀ l : List ℚ, meanOpt l = if l = [] then none else some (l.sum / l.length) from fun _ => rfl, if_pos hl] at hq
      cases hq
  · constructor
    · rw [show ∀ l : List ℚ, meanOpt l = if l = [] then none else some (l.sum / l.length) from fun _ => rfl, if_neg hl]
      constructor
      · intro hc
        cases hc
      · intro hall
        exact absurd (List.filterMap_eq_nil.mpr hall) hl
    · intro q hq
      replace hq : meanOpt ((groupOf samples k).filterMap (fun s => s.directHeartRate)) =
          some q := hq
      rw [show ∀ l : List ℚ, meanOpt l = if l = [] then none else some (l.sum / l.length) from fun _ => rfl, if_neg hl] at hq
      exact (Option.some.inj hq).symm

theorem getD_eq_get {α : Type} (l : List α) (d : α) (i : ℕ) (h : i < l.length) :
    l.getD i d = l.get ⟨i, h⟩ := by
  rw [List.getD_eq_get?, List.get?_eq_get h]
  rfl

theorem getD_map_of_lt {α β : Type} (f : α → β) (l : List α) (i : ℕ)
    (h : i < l.length) (d : β) (d' : α) : (l.map f).getD i d = f (l.getD i d') := by
  rw [getD_eq_get (l.map f) d i (by simpa using h), getD_eq_get l d' i h, List.get_map]

theorem kmStats_ne_nil {samples : List Sample} (hne : samples ≠ []) :
    kmStats samples ≠ [] := by
  rw [kmStats]
  simpa using kmKeys_ne_nil hne

theorem filterMap_id_map_some {α : Type} (l : List α) :
    (l.map some).filterMap id = l := by
  induction l with
  | nil => rfl
  | cons x rest ih => simp [ih]

/-- C6: the previous-boundary values start at exactly zero: the first
record's `interval_length` is its own boundary cumulative distance
over 1000, and its pace divides its own boundary cumulative duration
over 60 by that length. -/
theorem c6_first_interval (samples : List Sample) (hne : samples ≠ []) :
    ∃ r0 rest, processSamples samples = r0 :: rest ∧
      r0.interval_length = r0.sumDistance / 1000 ∧
      r0.interval_pace =
        FVal.divF (ofOpt (r0.sumDuration.map (fun q => q / 60)))
          (FVal.fin (r0.sumDistance / 1000)) := by
  cases hkk : kmKeys samples with
  | nil => exact absurd hkk (kmKeys_ne_nil hne)
  | cons k ks =>
      simp only [processSamples, split_distance, split_duration, kmStats, hkk,
        List.map_cons, diffFirstOwnQ, diffFirstOwn, mkRecords]
      exact ⟨_, _, rfl, rfl, rfl⟩

/-- C1 (amended): a record with zero `interval_length` has a
non-finite pace — `+inf` whenever the bucket's duration difference is
positive, never a finite number and never a crash. -/
theorem c1_zero_distance_nonfinite_pace (samples : List Sample) (i : ℕ)
    (h : i < (processSamples samples).length)
    (hz : ((processSamples samples).get ⟨i, h⟩).interval_length = 0) :
    ((processSamples samples).get ⟨i, h⟩).interval_pace.isFin = false ∧
    ∀ q : ℚ, (split_duration samples).getD i none = some q → 0 < q →
      ((processSamples samples).get ⟨i, h⟩).interval_pace = FVal.inf := by
  have hget := processSamples_get samples i h
  have h3 : i < (split_duration samples).length := by
    rw [split_duration_length, ← processSamples_length]
    exact h
  rw [hget] at hz ⊢
  replace hz : (split_distance samples).get
      ⟨i, by rw [split_distance_length, ← processSamples_length]; exact h⟩ = 0 := hz
  constructor
  · show (FVal.divF _ (FVal.fin _)).isFin = false
    rw [hz]
    exact divF_zero_not_fin _
  · intro q hq hpos
    rw [getD_eq_get _ _ i h3] at hq
    show FVal.divF (ofOpt ((split_duration samples).get ⟨i, h3⟩)) (FVal.fin _) = FVal.inf
    rw [hq, hz]
    exact divF_pos_zero q hpos

/-- C3 (amended): boundary values are the within-group maxima of
cumulative distance and duration; for inputs with non-decreasing
distance and (present) non-decreasing duration they coincide with the
last sample of each group, and the split columns are differences of
consecutive boundary values with zero before the first group. -/
theorem c3_boundary_values (samples : List Sample)
    (hm : List.Pairwise (fun u v : Sample => u.sumDistance ≤ v.sumDistance) samples)
    (hp : ∀ s ∈ samples, s.sumDuration.isSome)
    (hd : List.Pairwise
      (fun u v : Sample => u.sumDuration.getD 0 ≤ v.sumDuration.getD 0) samples) :
    (∀ k, ∀ hk : k ∈ kmKeys samples,
      (aggGroup samples k).sumDistance =
        ((groupOf samples k).getLast (groupOf_ne_nil hk)).sumDistance ∧
      (aggGroup samples k).sumDuration =
        ((groupOf samples k).getLast (groupOf_ne_nil hk)).sumDuration) ∧
    (∀ i, i < (kmStats samples).length →
      (split_distance samples).getD i 0 =
        (((kmStats samples).map (fun st => st.sumDistance)).getD i 0 -
          (if i = 0 then 0 else
            ((kmStats samples).map (fun st => st.sumDistance)).getD (i - 1) 0)) / 1000 ∧
      (split_duration samples).getD i none =
        some ((((kmStats samples).map (fun st => st.sumDuration.getD 0)).getD i 0 -
          (if i = 0 then 0 else
            ((kmStats samples).map (fun st => st.sumDuration.getD 0)).getD (i - 1) 0)) / 60)) := by
  constructor
  · intro k hk
    exact ⟨aggGroup_dist_getLast samples k hk hm, aggGroup_dur_getLast samples k hk hp hd⟩
  · intro i hi
    have hlen : i < ((kmStats samples).map (fun st => st.sumDistance)).length := by
      simpa using hi
    have hlen2 : i < (diffFirstOwnQ ((kmStats samples).map (fun st => st.sumDistance))).length := by
      rw [diffFirstOwnQ_length]
      exact hlen
    constructor
    · rw [split_distance, getD_map_of_lt (fun q => q / 1000) _ i hlen2 0 0,
        diffFirstOwnQ_getD _ i hlen]
    · have hlen3 : i < ((kmStats samples).map (fun st => st.sumDuration.getD 0)).length := by
        simpa using hi
      have hlen4 : i <
          ((diffFirstOwnQ ((kmStats samples).map (fun st => st.sumDuration.getD 0))).map
            (fun q => q / 60)).length := by
        rw [List.length_map, diffFirstOwnQ_length]
        exact hlen3
      rw [split_duration_eq_map_some samples hp,
        getD_map_of_lt some _ i hlen4 none 0,
        getD_map_of_lt (fun q => q / 60) _ i (by rw [diffFirstOwnQ_length]; exact hlen3) 0 0,
        diffFirstOwnQ_getD _ i hlen3]

/-- C7: under non-decreasing (and present) cumulative distance and
duration, the output interval lengths sum exactly to the final
cumulative distance over 1000, and the duration splits (all present)
sum exactly to the final cumulative duration over 60. -/
theorem c7_conservation (samples : List Sample) (hne : samples ≠ [])
    (hm : List.Pairwise (fun u v : Sample => u.sumDistance ≤ v.sumDistance) samples)
    (hp : ∀ s ∈ samples, s.sumDuration.isSome)
    (hd : List.Pairwise
      (fun u v : Sample => u.sumDuration.getD 0 ≤ v.sumDuration.getD 0) samples) :
    ((processSamples samples).map (fun r => r.interval_length)).sum =
      (samples.getLast hne).sumDistance / 1000 ∧
    ((split_duration samples).filterMap id).sum =
      (samples.getLast hne).sumDuration.getD 0 / 60 ∧
    ∀ o ∈ split_duration samples, o.isSome := by
  have hsne : kmStats samples ≠ [] := kmStats_ne_nil hne
  have hkne : kmKeys samples ≠ [] := kmKeys_ne_nil hne
  have hstatsLast : (kmStats samples).getLast hsne =
      aggGroup samples (kmOf (samples.getLast hne)) := by
    have h1 : (kmStats samples).getLast hsne =
        aggGroup samples ((kmKeys samples).getLast hkne) :=
      getLast_map_of_ne_nil (aggGroup samples) (kmKeys samples) hkne hsne
    rw [h1, kmKeys_getLast samples hne hm]
  refine ⟨?_, ?_, ?_⟩
  · rw [processSamples_map_interval_length, split_distance, sum_map_div,
      sum_diffFirstOwnQ,
      getLastD_map_of_ne_nil (fun st => st.sumDistance) (kmStats samples) hsne 0,
      hstatsLast, aggGroup_lastKey_dist samples hne hm]
  · rw [split_duration_eq_map_some samples hp, filterMap_id_map_some, sum_map_div,
      sum_diffFirstOwnQ,
      getLastD_map_of_ne_nil (fun st => st.sumDuration.getD 0) (kmStats samples) hsne 0,
      hstatsLast, aggGroup_lastKey_dur samples hne hp hd]
  · intro o ho
    rw [split_duration_eq_map_some samples hp] at ho
    obtain ⟨q, _, rfl⟩ := List.mem_map.mp ho
    rfl

/-- C4 (amended): `fastestSplit` filters to rows whose pace is a
strictly positive finite number with `km_interval ≥ minIndex`
(undefined, non-finite and non-positive paces are all dropped), then
returns the first row attaining the minimal pace — the lowest
`km_interval` among ties, for the ascending-`km_interval` lists the
aggregation produces; `none` exactly when nothing survives, and an
undefined pace is never selected. -/
theorem c4_fastest_split (rs : List SplitRecord) (minIndex : ℤ)
    (hs : List.Pairwise (fun a b : SplitRecord => a.km_interval < b.km_interval) rs) :
    (fastestSplit rs minIndex = none ↔ splitFilter minIndex rs = []) ∧
    ∀ r, fastestSplit rs minIndex = some r →
      r ∈ splitFilter minIndex rs ∧ r ∈ rs ∧
      r.interval_pace ≠ FVal.nan ∧ r.interval_pace.isInfB = false ∧
      r.interval_pace.gtZero = true ∧ minIndex ≤ r.km_interval ∧
      (∀ x ∈ splitFilter minIndex rs, r.interval_pace.val ≤ x.interval_pace.val) ∧
      (∀ x ∈ splitFilter minIndex rs,
        x.interval_pace.val = r.interval_pace.val → r.km_interval ≤ x.km_interval) := by
  have hfs : List.Pairwise (fun a b : SplitRecord => a.km_interval < b.km_interval)
      (splitFilter minIndex rs) :=
    List.Pairwise.sublist (List.filter_sublist rs) hs
  constructor
  · rw [fastestSplit]
    exact argminFirst_eq_none_iff _ _
  · intro r hr
    rw [fastestSplit] at hr
    obtain ⟨hmem, hmin, htie⟩ := argminFirst_spec _ _ hfs r hr
    have hvalid : validSplit minIndex r = true := List.of_mem_filter hmem
    rw [validSplit] at hvalid
    simp only [Bool.and_eq_true, Bool.not_eq_true', decide_eq_true_eq] at hvalid
    obtain ⟨⟨⟨hna, hinf⟩, hgt⟩, hkm⟩ := hvalid
    refine ⟨hmem, (List.filter_sublist rs).mem hmem, ?_, hinf, hgt, hkm, hmin, htie⟩
    intro hcon
    rw [hcon] at hna
    cases hna

/-- A single sample at distance 0 with positive duration: the bucket
has zero interval distance and positive interval duration. -/
def exZeroDist : List Sample :=
  [{ sumDistance := 0, sumDuration := some 60, directHeartRate := some 150 }]

/-- A well-behaved monotone three-sample activity; the middle sample
lacks a heart rate. -/
def exMono : List Sample :=
  [{ sumDistance := 500, sumDuration := some 120, directHeartRate := some 150 },
   { sumDistance := 1000, sumDuration := some 300, directHeartRate := none },
   { sumDistance := 2500, sumDuration := some 600, directHeartRate := some 160 }]

/-- The second output row of `processSamples exMono`: its bucket's
only sample (at 1000 m) has no heart rate. -/
def exMonoRec1 : SplitRecord :=
  { km_interval := 1, directHeartRate := none, sumDistance := 1000,
    sumDuration := some 300, interval_pace := FVal.fin 6, interval_length := 1/2 }

/-- Out-of-order input: the later sample has smaller cumulative
distance and duration than the earlier one, inside one bucket. -/
def exOutOfOrder : List Sample :=
  [{ sumDistance := 500, sumDuration := some 100, directHeartRate := none },
   { sumDistance := 400, sumDuration := some 50, directHeartRate := none }]

/-- Input with a negative cumulative distance: floor would bucket it
at key −1, truncation buckets it with the 500 m sample at key 0. -/
def exNegative : List Sample :=
  [{ sumDistance := -500, sumDuration := some 10, directHeartRate := none },
   { sumDistance := 500, sumDuration := some 20, directHeartRate := none }]

/-- A sample with negative cumulative distance. -/
def exNegSample : Sample :=
  { sumDistance := -500, sumDuration := none, directHeartRate := none }

/-- A record with a negative finite pace past the warm-up cutoff. -/
def exRecNegPace : SplitRecord :=
  { km_interval := 2, directHeartRate := none, sumDistance := 2000,
    sumDuration := some 100, interval_pace := FVal.fin (-5), interval_length := 1 }

/-- A record whose pace is the undefined marker. -/
def exRecNan : SplitRecord :=
  { km_interval := 2, directHeartRate := none, sumDistance := 2000,
    sumDuration := none, interval_pace := FVal.nan, interval_length := 1 }

/-- C1 counterexample: a bucket with zero interval distance and
positive interval duration yields `interval_pace = +inf`, not the
undefined (NaN) marker the claim requires. -/
theorem c1_counterexample :
    (processSamples exZeroDist).map (fun r => (r.interval_length, r.interval_pace)) =
      [((0 : ℚ), FVal.inf)] ∧ FVal.inf ≠ FVal.nan := by
  with_unfolding_all decide

theorem c1_witness :
    ((processSamples exZeroDist).get ⟨0, by with_unfolding_all decide⟩).interval_pace.isFin =
      false :=
  (c1_zero_distance_nonfinite_pace exZeroDist 0 (by with_unfolding_all decide)
    (by with_unfolding_all decide)).1

/-- C2 counterexample: with a negative-distance sample the input has
two distinct floor-of-kilometer keys (−1 and 0) but the output has a
single record (both samples truncate to bucket 0), so there is not one
record per distinct floor key. -/
theorem c2_counterexample :
    (processSamples exNegative).map (fun r => r.km_interval) = [0] ∧
    exNegative.map (fun s => ⌊s.sumDistance / 1000⌋) = [-1, 0] := by
  constructor
  · with_unfolding_all decide
  · with_unfolding_all decide

theorem c2_witness :
    ((processSamples exMono).map (fun r => r.km_interval)).Sorted (· < ·) ∧
    (processSamples exMono).length = (exMono.map kmOf).toFinset.card :=
  ⟨(c2_one_record_per_key exMono (by with_unfolding_all decide)).1,
   (c2_one_record_per_key exMono (by with_unfolding_all decide)).2.1⟩

/-- C3 counterexample: on out-of-order input the emitted boundary
values are the group maxima (500 m, 100 s), not the values of the last
sample of the group in input order (400 m, 50 s). -/
theorem c3_counterexample :
    (processSamples exOutOfOrder).map (fun r => (r.sumDistance, r.sumDuration)) =
      [((500 : ℚ), some (100 : ℚ))] ∧
    exOutOfOrder.getLastD { sumDistance := 0, sumDuration := none, directHeartRate := none } =
      { sumDistance := 400, sumDuration := some 50, directHeartRate := none } ∧
    ((500 : ℚ), some (100 : ℚ)) ≠ ((400 : ℚ), some (50 : ℚ)) := by
  refine ⟨?_, ?_, ?_⟩ <;> with_unfolding_all decide

theorem c3_witness :
    (aggGroup exMono 0).sumDistance =
      ((groupOf exMono 0).getLast (by with_unfolding_all decide)).sumDistance :=
  ((c3_boundary_values exMono (by with_unfolding_all decide)
      (by with_unfolding_all decide) (by with_unfolding_all decide)).1 0
    (by with_unfolding_all decide)).1

/-- C4 counterexample: a record with a negative finite pace is neither
undefined, zero, nor non-finite and passes the warm-up cutoff, so by
the claim it should be selected as the (unique) fastest split; the
code's `interval_pace > 0` filter drops it and returns `none`. -/
theorem c4_counterexample :
    fastestSplit [exRecNegPace] 2 = none ∧
    exRecNegPace.interval_pace.isFin = true ∧
    exRecNegPace.interval_pace ≠ FVal.fin 0 ∧
    2 ≤ exRecNegPace.km_interval := by
  refine ⟨?_, ?_, ?_, ?_⟩ <;> with_unfolding_all decide

theorem c4_witness : fastestSplit [exRecNan] 2 = none :=
  ((c4_fastest_split [exRecNan] 2 (by with_unfolding_all decide)).1).mpr
    (by with_unfolding_all decide)

theorem c6_witness :
    ∃ r0 rest, processSamples exMono = r0 :: rest ∧
      r0.interval_length = r0.sumDistance / 1000 ∧
      r0.interval_pace =
        FVal.divF (ofOpt (r0.sumDuration.map (fun q => q / 60)))
          (FVal.fin (r0.sumDistance / 1000)) :=
  c6_first_interval exMono (by with_unfolding_all decide)

theorem c7_witness :
    ((processSamples exMono).map (fun r => r.interval_length)).sum =
      (exMono.getLast (by with_unfolding_all decide)).sumDistance / 1000 :=
  (c7_conservation exMono (by with_unfolding_all decide) (by with_unfolding_all decide)
    (by with_unfolding_all decide) (by with_unfolding_all decide)).1

theorem c8_witness :
    (exMonoRec1.directHeartRate = none ↔
      ∀ s ∈ groupOf exMono exMonoRec1.km_interval, s.directHeartRate = none) ∧
    ∀ q, exMonoRec1.directHeartRate = some q →
      q = ((groupOf exMono exMonoRec1.km_interval).filterMap
            (fun s => s.directHeartRate)).sum /
          ((groupOf exMono exMonoRec1.km_interval).filterMap
            (fun s => s.directHeartRate)).length :=
  c8_heart_rate_mean exMono exMonoRec1 (by with_unfolding_all decide)

theorem c9_witness :
    kmOf exNegSample = 0 ∧ ⌊exNegSample.sumDistance / 1000⌋ = -1 ∧
    (∀ s' : Sample, 0 ≤ s'.sumDistance → s'.sumDistance < 1000 → kmOf s' = 0) :=
  c9_truncation_toward_zero exNegSample (by with_unfolding_all decide)
    (by with_unfolding_all decide)

end Garmin
